import Mathlib

/-!
Verification of the release-discovery and orchestration engine of
deepentropy/ibapi-python (check_and_update.py, update_ibapi.py,
get_download_url.py) against its specification, via a shallow embedding:
pure Python helpers become Lean functions, the orchestrator's per-release
loop becomes explicit state passing, and the external world (git, network,
build, upload) is modeled by per-release outcome records.
-/

/-- One discovered vendor release, as built by
get_download_url.extract_download_info (a Python dict with keys url,
version, release_date, platform, release_notes; version may be None). -/
structure Download where
  url : String
  version : Option String
  releaseDate : Option String := none
  platform : Option String := none
  releaseNotes : Option String := none
deriving DecidableEq, Repr

/-- Numeric value of a run of decimal digits, most significant first (the
value Python's int() assigns to a digit string). -/
def digitsVal (l : List Char) : Nat :=
  l.foldl (fun acc c => 10 * acc + (c.toNat - '0'.toNat)) 0

/-- Model of Python int() on the token shapes occurring in this program: an
optional single sign followed by a nonempty run of ASCII digits (surrounding
whitespace and underscore separators never occur in the version tokens this
repository manipulates). Returns none where int() raises ValueError. -/
def pyIntChars : List Char → Option Int
  | [] => none
  | c :: rest =>
    if c = '-' then
      if rest ≠ [] ∧ rest.all Char.isDigit then some (-(digitsVal rest : Int)) else none
    else if c = '+' then
      if rest ≠ [] ∧ rest.all Char.isDigit then some ((digitsVal rest : Int)) else none
    else
      if (c :: rest).all Char.isDigit then some ((digitsVal (c :: rest) : Int)) else none

/-- Model of Python str.split('.'): split at every dot, keeping empty
parts; the empty string yields [""]. -/
def splitOnDot : List Char → List (List Char)
  | [] => [[]]
  | c :: rest =>
    if c = '.' then [] :: splitOnDot rest
    else
      match splitOnDot rest with
      | [] => [[c]]
      | g :: gs => (c :: g) :: gs

/-- check_and_update.parse_version_number: parse a string like '10.37' into
(10, 37, 0); a missing minor or micro component defaults to 0; parts beyond
the third are ignored; none models the ValueError raised when int() fails
on a part. -/
def parse_version_number (version_str : String) : Option (Int × Int × Int) :=
  match splitOnDot version_str.toList with
  | [] => none
  | p0 :: rest =>
    (pyIntChars p0).bind fun major =>
    (match rest with
     | [] => some 0
     | p1 :: _ => pyIntChars p1).bind fun minor =>
    (match rest with
     | _ :: p2 :: _ => pyIntChars p2
     | _ => some 0).bind fun micro =>
    some (major, minor, micro)

/-- check_and_update.version_to_tag: "v" followed by the version string. -/
def version_to_tag (version : String) : String := "v" ++ version

/-- check_and_update.find_new_versions: keep the downloads whose version is
truthy (not None and not empty) and whose tag is absent from the existing
tags; the tag ledger (a Python set) is modeled by its membership, as a list
of tag strings. -/
def find_new_versions (downloads : List Download) (existing_tags : List String) :
    List Download :=
  downloads.filter fun dl =>
    match dl.version with
    | none => false
    | some v => if v = "" then false else !(existing_tags.contains (version_to_tag v))

/-- Lexicographic comparison of version triples, as Python compares
3-tuples of ints. -/
def keyLe (a b : Int × Int × Int) : Bool :=
  decide (a.1 < b.1 ∨ (a.1 = b.1 ∧ (a.2.1 < b.2.1 ∨ (a.2.1 = b.2.1 ∧ a.2.2 ≤ b.2.2))))

/-- Strict counterpart of keyLe (Python tuple <). -/
def keyLt (a b : Int × Int × Int) : Bool :=
  decide (a.1 < b.1 ∨ (a.1 = b.1 ∧ (a.2.1 < b.2.1 ∨ (a.2.1 = b.2.1 ∧ a.2.2 < b.2.2))))

/-- The sort key used in check_and_update.sort_versions:
parse_version_number of the download's version, with any exception
(missing or unparsable version) giving (0, 0, 0). -/
def version_key (dl : Download) : Int × Int × Int :=
  match dl.version with
  | none => (0, 0, 0)
  | some v => (parse_version_number v).getD (0, 0, 0)

/-- The comparison sorted(downloads, key=version_key) induces: compare the
version keys lexicographically. -/
def downloadLe (a b : Download) : Bool := keyLe (version_key a) (version_key b)

/-- check_and_update.sort_versions: ascending stable sort by version_key
(Python's sorted is a stable merge sort). -/
def sort_versions (downloads : List Download) : List Download :=
  downloads.mergeSort downloadLe

/-- check_and_update.get_highest_version: None on an empty list, else the
version field of the last element of the sorted list. -/
def get_highest_version (downloads : List Download) : Option String :=
  match (sort_versions downloads).getLast? with
  | none => none
  | some dl => dl.version

/-- check_and_update.is_latest_version: string equality against the highest
version (False when the highest is None). -/
def is_latest_version (version : String) (all_downloads : List Download) : Bool :=
  match get_highest_version all_downloads with
  | none => false
  | some h => version == h

/-- check_and_update.get_target_branch: "main" for the latest version,
"stable" for every other. -/
def get_target_branch (version : String) (all_downloads : List Download) : String :=
  if is_latest_version version all_downloads then "main" else "stable"

/-- get_download_url.filter_mac_unix_downloads. -/
def filter_mac_unix_downloads (downloads : List Download) : List Download :=
  downloads.filter fun d => d.platform == some "Mac / Unix"

/-- Leftmost position where four digits, a dot and two digits occur, with
the two digit groups, as Python re.search resolves (\d{4})\.(\d{2}) on the
character list starting here (\d modeled as an ASCII digit). -/
def blobAt (l : List Char) : Option (List Char × List Char) :=
  match l with
  | a1 :: a2 :: a3 :: a4 :: d :: a5 :: a6 :: _ =>
    if a1.isDigit ∧ a2.isDigit ∧ a3.isDigit ∧ a4.isDigit ∧ d = '.' ∧
       a5.isDigit ∧ a6.isDigit then
      some ([a1, a2, a3, a4], [a5, a6])
    else none
  | _ => none

/-- Scan left to right for the first match of (\d{4})\.(\d{2}). -/
def findBlob : List Char → Option (List Char × List Char)
  | [] => none
  | c :: rest =>
    match blobAt (c :: rest) with
    | some r => some r
    | none => findBlob rest

/-- The rendering f"{major}.{minor}.{micro}" shared by both extractors:
major and minor as Python int values of their digit groups, micro verbatim
as a string (preserving a leading zero). -/
def formatVersion (majChars minChars micro : List Char) : String :=
  toString (digitsVal majChars) ++ "." ++ toString (digitsVal minChars) ++ "." ++
    String.mk micro

/-- Anchored branch of update_ibapi.extract_version_from_filename: the
regex \.(\d{4})\.(\d{2})\.zip$ matches exactly when the filename ends with
".dddd.dd.zip"; examined here on the reversed character list. -/
def suffixBlob (rev : List Char) : Option String :=
  match rev with
  | p :: i :: z :: d1 :: c2 :: c1 :: d2 :: b4 :: b3 :: b2 :: b1 :: d3 :: _ =>
    if p = 'p' ∧ i = 'i' ∧ z = 'z' ∧ d1 = '.' ∧ d2 = '.' ∧ d3 = '.' ∧
       b1.isDigit ∧ b2.isDigit ∧ b3.isDigit ∧ b4.isDigit ∧
       c1.isDigit ∧ c2.isDigit then
      some (formatVersion [b1, b2] [b3, b4] [c1, c2])
    else none
  | _ => none

/-- Remainder of the character list after the first occurrence of "twsapi":
the start position Python re.search selects for the fallback regex (the
first occurrence admits a match whenever any later one does, since the lazy
gap can span the difference). -/
def afterTwsapi : List Char → Option (List Char)
  | [] => none
  | c :: rest =>
    if (c :: rest).take 6 = "twsapi".toList then some ((c :: rest).drop 6)
    else afterTwsapi rest

/-- update_ibapi.extract_version_from_filename: first the end-anchored
pattern \.(\d{4})\.(\d{2})\.zip$, then the fallback twsapi.*?(\d{4})\.(\d{2})
(lazy, hence the earliest blob at least six characters past the first
"twsapi"); none models the ValueError raised when neither matches. -/
def extract_version_from_filename (filename : String) : Option String :=
  match suffixBlob filename.toList.reverse with
  | some v => some v
  | none =>
    match afterTwsapi filename.toList with
    | none => none
    | some rest =>
      match findBlob rest with
      | none => none
      | some (g1, g2) => some (formatVersion (g1.take 2) (g1.drop 2) g2)

/-- Version derivation inside get_download_url.extract_download_info:
search (\d{4})\.(\d{2}) anywhere in the download URL and render
f"{int(major)}.{int(minor)}.{micro}"; None when the pattern is absent. -/
def extract_version_from_url (url : String) : Option String :=
  match findBlob url.toList with
  | none => none
  | some (g1, g2) => some (formatVersion (g1.take 2) (g1.drop 2) g2)

/-- Outcomes of the external world (git, network, build system, PyPI) for
one release's pipeline steps, as seen by the orchestrator in
check_and_update.main. publishOk is the return value of publish_to_pypi(),
which is True outright when the skip-upload directive is set. -/
structure ReleaseEnv where
  branchLocal : Bool
  branchRemote : Bool
  fetchOk : Bool
  createOk : Bool
  checkoutOk : Bool
  ingestOk : Bool
  hasChanges : Bool
  buildOk : Bool
  publishOk : Bool
deriving DecidableEq, Repr

/-- Where a newly created branch forks from: an explicit ref (git branch
name base_ref) or the current HEAD (git checkout -b). -/
inductive CreateSource where
  | fromRef (r : String)
  | fromHead
deriving DecidableEq, Repr

/-- check_and_update.ensure_branch_exists: an existing local branch, or a
remote branch successfully fetched and tracked, needs no creation;
otherwise the branch is created from base_ref when one was supplied and
from current HEAD when not. Returns (success, creation source if a new
branch was created). A failure while probing the remote falls through to
local creation, as the except/pass in the source does. -/
def ensure_branch_exists (e : ReleaseEnv) (base_ref : Option String) :
    Bool × Option CreateSource :=
  if e.branchLocal then (true, none)
  else if e.branchRemote && e.fetchOk then (true, none)
  else if e.createOk then
    (true, some (match base_ref with
                 | some r => CreateSource.fromRef r
                 | none => CreateSource.fromHead))
  else (false, none)

/-- Effects of one run of update_ibapi.commit_and_tag: its boolean return
value and whether a commit and a tag were created. -/
structure IngestEffect where
  result : Bool
  committed : Bool
  tagged : Bool
deriving DecidableEq, Repr

/-- update_ibapi.commit_and_tag as a function of whether git status reports
changes after staging: with an unchanged tree it returns False having
created neither commit nor tag; otherwise it commits and (re)creates the
v-tag. -/
def commit_and_tag (hasChanges : Bool) : IngestEffect :=
  if hasChanges then ⟨true, true, true⟩ else ⟨false, false, false⟩

/-- Exit status of the update_ibapi.py subprocess as check_and_update.
update_version observes it: zero exactly when download, extraction and the
git operations succeed — independently of whether commit_and_tag found
anything to commit, since update_ibapi.main exits 0 on the no-op path too. -/
def update_ibapi_exit_ok (stepsOk _hasChanges : Bool) : Bool := stepsOk

/-- The in-memory accumulators of check_and_update.main's processing loop. -/
structure RunState where
  successCount : Nat
  failedVersions : List String
  branchesUpdated : List String
deriving DecidableEq, Repr

/-- Loop state before any release is processed. -/
def initState : RunState := ⟨0, [], []⟩

/-- Python set.add on the branches_updated set, modeled by membership. -/
def addBranch (l : List String) (b : String) : List String :=
  if l.contains b then l else b :: l

/-- What happened to one release: which steps ran, what was created, and
whether the release failed. On a failed ingest only the attempt is
recorded; commit/tag effects of a partially completed ingest subprocess
are not modeled (every claim about commits evaluates successful ingests). -/
structure StepTrace where
  version : String
  target : String
  createdFrom : Option CreateSource
  switched : Bool
  ingestAttempted : Bool
  committed : Bool
  tagged : Bool
  buildAttempted : Bool
  publishAttempted : Bool
  failed : Bool
deriving DecidableEq, Repr

/-- One iteration of the per-release loop in check_and_update.main (lines
356-405): compute the target branch and base ref, ensure the branch,
switch, ingest, build, publish, each failure appending the version to
failed_versions and abandoning the rest of this release's pipeline. -/
def processRelease (all_downloads : List Download) (initial_head : Option String)
    (st : RunState) (dl : Download) (e : ReleaseEnv) : RunState × StepTrace :=
  let version := dl.version.getD ""
  let target := get_target_branch version all_downloads
  let base_ref : Option String :=
    match initial_head with
    | some h => if target = "stable" ∧ st.branchesUpdated.contains "main" then some h else none
    | none => none
  let ens := ensure_branch_exists e base_ref
  if !ens.1 then
    ({ st with failedVersions := st.failedVersions ++ [version] },
     ⟨version, target, ens.2, false, false, false, false, false, false, true⟩)
  else if !e.checkoutOk then
    ({ st with failedVersions := st.failedVersions ++ [version] },
     ⟨version, target, ens.2, false, false, false, false, false, false, true⟩)
  else if !(update_ibapi_exit_ok e.ingestOk e.hasChanges) then
    ({ st with failedVersions := st.failedVersions ++ [version] },
     ⟨version, target, ens.2, true, true, false, false, false, false, true⟩)
  else
    let ing := commit_and_tag e.hasChanges
    let st1 := { st with branchesUpdated := addBranch st.branchesUpdated target }
    if !e.buildOk then
      ({ st1 with failedVersions := st1.failedVersions ++ [version] },
       ⟨version, target, ens.2, true, true, ing.committed, ing.tagged, true, false, true⟩)
    else if !e.publishOk then
      ({ st1 with failedVersions := st1.failedVersions ++ [version] },
       ⟨version, target, ens.2, true, true, ing.committed, ing.tagged, true, true, true⟩)
    else
      ({ st1 with successCount := st1.successCount + 1 },
       ⟨version, target, ens.2, true, true, ing.committed, ing.tagged, true, true, false⟩)

/-- Whether a release's pipeline fails, as a function of the external
outcomes alone (no step outcome depends on the loop state). -/
def releaseFails (e : ReleaseEnv) : Bool :=
  !(e.branchLocal || (e.branchRemote && e.fetchOk) || e.createOk) ||
    !e.checkoutOk || !e.ingestOk || !e.buildOk || !e.publishOk

/-- The processing loop of check_and_update.main: releases in order, state
threaded through, one trace per release. -/
def runLoop (all_downloads : List Download) (initial_head : Option String)
    (envOf : Download → ReleaseEnv) :
    List Download → RunState → RunState × List StepTrace
  | [], st => (st, [])
  | dl :: rest, st =>
    let p := processRelease all_downloads initial_head st dl (envOf dl)
    let r := runLoop all_downloads initial_head envOf rest p.1
    (r.1, p.2 :: r.2)

/-- Exit code and final state of one whole run. -/
structure RunResult where
  exitCode : Nat
  state : RunState
  traces : List StepTrace
deriving DecidableEq, Repr

/-- check_and_update.main after a successful catalog fetch: filter to the
Mac/Unix downloads, diff against the tag ledger, exit 0 when nothing is
new, otherwise process the new versions oldest first and exit 1 exactly
when some release failed. -/
def check_and_update_main (all_downloads : List Download) (existing_tags : List String)
    (initial_head : Option String) (envOf : Download → ReleaseEnv) : RunResult :=
  let downloads := filter_mac_unix_downloads all_downloads
  if downloads = [] then ⟨0, initState, []⟩
  else
    let new_versions := find_new_versions downloads existing_tags
    if new_versions = [] then ⟨0, initState, []⟩
    else
      let ordered := sort_versions new_versions
      let r := runLoop downloads initial_head envOf ordered initState
      ⟨if r.1.failedVersions = [] then 0 else 1, r.1, r.2⟩

/-- Tag names of a list of candidates (those with a version string). -/
def tags_of (l : List Download) : List String :=
  l.filterMap fun dl => dl.version.map version_to_tag

lemma mem_find_new_versions {downloads : List Download} {existing_tags : List String}
    {dl : Download} :
    dl ∈ find_new_versions downloads existing_tags ↔
      dl ∈ downloads ∧ ∃ v, dl.version = some v ∧ v ≠ "" ∧
        version_to_tag v ∉ existing_tags := by
  unfold find_new_versions
  rw [List.mem_filter]
  constructor
  · rintro ⟨hmem, hp⟩
    refine ⟨hmem, ?_⟩
    cases hv : dl.version with
    | none => rw [hv] at hp; simp at hp
    | some v =>
      rw [hv] at hp
      by_cases he : v = ""
      · simp [he] at hp
      · refine ⟨v, rfl, he, ?_⟩
        simp [he] at hp
        simpa [List.contains, List.elem_iff] using hp
  · rintro ⟨hmem, v, hv, he, htag⟩
    refine ⟨hmem, ?_⟩
    rw [hv]
    simp [he]
    simpa [List.contains, List.elem_iff] using htag

lemma mem_tags_of {l : List Download} {dl : Download} {v : String}
    (hmem : dl ∈ l) (hv : dl.version = some v) :
    version_to_tag v ∈ tags_of l := by
  unfold tags_of
  rw [List.mem_filterMap]
  exact ⟨dl, hmem, by rw [hv]; rfl⟩

/-- C5: find_new_versions includes a candidate exactly when its version is
present (and nonempty, Python truthiness) and the tag "v" + version is
absent from the existing-tag set; candidates with a missing version token
are skipped, and the selection is total (never aborts). -/
theorem c5_selection_iff (downloads : List Download) (existing_tags : List String)
    (dl : Download) :
    dl ∈ find_new_versions downloads existing_tags ↔
      dl ∈ downloads ∧ ∃ v, dl.version = some v ∧ v ≠ "" ∧
        version_to_tag v ∉ existing_tags :=
  mem_find_new_versions

/-- C9: the output of find_new_versions is a subsequence of its input:
every returned candidate occurs in the input, relative order is kept, and
nothing is duplicated or synthesized. -/
theorem c9_selection_sublist (downloads : List Download) (existing_tags : List String) :
    (find_new_versions downloads existing_tags).Sublist downloads :=
  List.filter_sublist downloads

/-- C6: find_new_versions is idempotent — rerunning it on the same inputs
gives the same list, and rerunning it after adding the tags of the
returned candidates to the ledger gives the empty list. -/
theorem c6_idempotent (downloads : List Download) (existing_tags : List String) :
    find_new_versions downloads existing_tags = find_new_versions downloads existing_tags ∧
    find_new_versions downloads
        (existing_tags ++ tags_of (find_new_versions downloads existing_tags)) = [] := by
  refine ⟨rfl, ?_⟩
  rw [List.eq_nil_iff_forall_not_mem]
  intro dl hmem
  rw [mem_find_new_versions] at hmem
  obtain ⟨hdl, v, hv, hne, htag⟩ := hmem
  apply htag
  rw [List.mem_append]
  by_cases hin : version_to_tag v ∈ existing_tags
  · exact Or.inl hin
  · refine Or.inr (mem_tags_of ?_ hv)
    rw [mem_find_new_versions]
    exact ⟨hdl, v, hv, hne, hin⟩

lemma splitOnDot_no_dot {a : List Char} (h : '.' ∉ a) : splitOnDot a = [a] := by
  induction a with
  | nil => rfl
  | cons c rest ih =>
    have hc : c ≠ '.' := fun hc => h (hc ▸ List.mem_cons_self c rest)
    have hrest : '.' ∉ rest := fun hr => h (List.mem_cons_of_mem c hr)
    simp [splitOnDot, hc, ih hrest]

lemma splitOnDot_append {a : List Char} (b : List Char) (h : '.' ∉ a) :
    splitOnDot (a ++ '.' :: b) = a :: splitOnDot b := by
  induction a with
  | nil => simp [splitOnDot]
  | cons c rest ih =>
    have hc : c ≠ '.' := fun hc => h (hc ▸ List.mem_cons_self c rest)
    have hrest : '.' ∉ rest := fun hr => h (List.mem_cons_of_mem c hr)
    have h2 : splitOnDot (rest.append ('.' :: b)) = rest :: splitOnDot b := ih hrest
    simp [splitOnDot, hc]
    rw [ih hrest]

lemma digits_no_dot {a : List Char} (h : a.all Char.isDigit) : '.' ∉ a := by
  intro hmem
  have := List.all_eq_true.mp h _ hmem
  simp [Char.isDigit] at this

lemma pyIntChars_digits {a : List Char} (hne : a ≠ []) (h : a.all Char.isDigit) :
    pyIntChars a = some ((digitsVal a : Int)) := by
  cases a with
  | nil => exact absurd rfl hne
  | cons c rest =>
    have hc : c.isDigit := (List.all_eq_true.mp h) c (List.mem_cons_self c rest)
    have hminus : c ≠ '-' := by rintro rfl; simp [Char.isDigit] at hc
    have hplus : c ≠ '+' := by rintro rfl; simp [Char.isDigit] at hc
    simp [pyIntChars, hminus, hplus, h]

/-- C10: parse_version_number defaults missing components to zero — a
dotted pair of digit tokens parses to (major, minor, 0) and a bare digit
token to (major, 0, 0) — so for the ordering key "10.40" compares equal to
"10.40.0" and a micro of "01" compares equal to "1". -/
theorem c10_missing_components_default_zero (a b : List Char)
    (hane : a ≠ []) (ha : a.all Char.isDigit)
    (hbne : b ≠ []) (hb : b.all Char.isDigit) :
    parse_version_number (String.mk (a ++ '.' :: b)) =
        some ((digitsVal a : Int), (digitsVal b : Int), 0) ∧
    parse_version_number (String.mk a) = some ((digitsVal a : Int), 0, 0) ∧
    parse_version_number "10.40" = parse_version_number "10.40.0" ∧
    parse_version_number "10.40.01" = parse_version_number "10.40.1" := by
  refine ⟨?_, ?_, by decide, by decide⟩
  · show parse_version_number ⟨a ++ '.' :: b⟩ = _
    unfold parse_version_number
    rw [show (String.mk (a ++ '.' :: b)).toList = a ++ '.' :: b from rfl]
    rw [splitOnDot_append b (digits_no_dot ha), splitOnDot_no_dot (digits_no_dot hb)]
    simp [pyIntChars_digits hane ha, pyIntChars_digits hbne hb]
  · unfold parse_version_number
    rw [show (String.mk a).toList = a from rfl]
    rw [splitOnDot_no_dot (digits_no_dot ha)]
    simp [pyIntChars_digits hane ha]

/-- Witness for C10 at the concrete tokens "10.40" and "10". -/
theorem c10_missing_components_default_zero_witness :
    parse_version_number (String.mk (['1', '0'] ++ '.' :: ['4', '0'])) =
        some ((digitsVal ['1', '0'] : Int), (digitsVal ['4', '0'] : Int), 0) :=
  (c10_missing_components_default_zero ['1', '0'] ['4', '0']
    (by decide) (by decide) (by decide) (by decide)).1

/-- C4: for every valid 6-digit filename blob MMmm.cc (any prefix, four
digits, dot, two digits, ".zip"), extract_version_from_filename renders
"{M}.{m}.{cc}" with the two-character micro kept verbatim; in particular
blob 1040.01 yields "10.40.01" and never "10.40.1", and the URL-based
extractor in get_download_url agrees on the canonical example. -/
theorem c4_blob_roundtrip (p : String) (b1 b2 b3 b4 c1 c2 : Char)
    (h1 : b1.isDigit) (h2 : b2.isDigit) (h3 : b3.isDigit) (h4 : b4.isDigit)
    (h5 : c1.isDigit) (h6 : c2.isDigit) :
    extract_version_from_filename
        (p ++ String.mk ['.', b1, b2, b3, b4, '.', c1, c2, '.', 'z', 'i', 'p']) =
      some (toString (digitsVal [b1, b2]) ++ "." ++ toString (digitsVal [b3, b4]) ++
        "." ++ String.mk [c1, c2]) ∧
    extract_version_from_filename "twsapi_macunix.1040.01.zip" = some "10.40.01" ∧
    extract_version_from_filename "twsapi_macunix.1040.01.zip" ≠ some "10.40.1" ∧
    extract_version_from_url
        "https://interactivebrokers.github.io/downloads/twsapi_macunix.1040.01.zip" =
      some "10.40.01" := by
  refine ⟨?_, by decide, by decide, by decide⟩
  have hrev : (p ++ String.mk ['.', b1, b2, b3, b4, '.', c1, c2, '.', 'z', 'i', 'p']).toList.reverse
      = 'p' :: 'i' :: 'z' :: '.' :: c2 :: c1 :: '.' :: b4 :: b3 :: b2 :: b1 :: '.' ::
        p.toList.reverse := by
    rw [show (p ++ String.mk ['.', b1, b2, b3, b4, '.', c1, c2, '.', 'z', 'i', 'p']).toList
        = p.toList ++ ['.', b1, b2, b3, b4, '.', c1, c2, '.', 'z', 'i', 'p'] from
      String.data_append ..]
    simp
  unfold extract_version_from_filename
  rw [hrev]
  simp [suffixBlob, h1, h2, h3, h4, h5, h6, formatVersion]

/-- Witness for C4 at the canonical filename twsapi_macunix.1040.01.zip. -/
theorem c4_blob_roundtrip_witness :
    extract_version_from_filename
        ("twsapi_macunix" ++ String.mk ['.', '1', '0', '4', '0', '.', '0', '1', '.', 'z', 'i', 'p']) =
      some (toString (digitsVal ['1', '0']) ++ "." ++ toString (digitsVal ['4', '0']) ++
        "." ++ String.mk ['0', '1']) :=
  (c4_blob_roundtrip "twsapi_macunix" '1' '0' '4' '0' '0' '1'
    (by decide) (by decide) (by decide) (by decide) (by decide) (by decide)).1

lemma keyLe_trans {a b c : Int × Int × Int} (hab : keyLe a b) (hbc : keyLe b c) :
    keyLe a c := by
  obtain ⟨a1, a2, a3⟩ := a
  obtain ⟨b1, b2, b3⟩ := b
  obtain ⟨c1, c2, c3⟩ := c
  simp only [keyLe, decide_eq_true_eq] at *
  omega

lemma keyLe_total (a b : Int × Int × Int) : keyLe a b || keyLe b a := by
  obtain ⟨a1, a2, a3⟩ := a
  obtain ⟨b1, b2, b3⟩ := b
  simp only [keyLe, Bool.or_eq_true, decide_eq_true_eq]
  omega

lemma keyLe_refl (a : Int × Int × Int) : keyLe a a := by
  simp [keyLe]

lemma keyLt_not_keyLe {a b : Int × Int × Int} (h : keyLt a b) : ¬ keyLe b a := by
  obtain ⟨a1, a2, a3⟩ := a
  obtain ⟨b1, b2, b3⟩ := b
  simp only [keyLt, keyLe, decide_eq_true_eq] at *
  omega

lemma downloadLe_trans (a b c : Download) :
    downloadLe a b → downloadLe b c → downloadLe a c :=
  fun hab hbc => keyLe_trans hab hbc

lemma downloadLe_total (a b : Download) : downloadLe a b || downloadLe b a :=
  keyLe_total (version_key a) (version_key b)

lemma sort_versions_pairwise (l : List Download) :
    (sort_versions l).Pairwise fun a b => downloadLe a b := by
  have := List.sorted_mergeSort downloadLe_trans downloadLe_total l
  simpa [sort_versions] using this

lemma sort_versions_perm (l : List Download) : (sort_versions l).Perm l :=
  List.mergeSort_perm l _

lemma mem_sort_versions {l : List Download} {dl : Download} :
    dl ∈ sort_versions l ↔ dl ∈ l :=
  List.mem_mergeSort

/-- Every member of a list that is pairwise-ordered by a reflexive relation
is related to the list's last element. -/
lemma pairwise_rel_getLast {α : Type} {R : α → α → Prop} (hrefl : ∀ a, R a a)
    {l : List α} (hp : l.Pairwise R) (hne : l ≠ []) {a : α} (ha : a ∈ l) :
    R a (l.getLast hne) := by
  induction l using List.reverseRecOn with
  | nil => exact absurd rfl hne
  | append_singleton xs b _ =>
    rw [List.getLast_append]
    rcases List.mem_append.mp ha with hmem | hmem
    · exact (List.pairwise_append.mp hp).2.2 a hmem b (List.mem_singleton_self b)
    · rw [List.mem_singleton.mp hmem]
      exact hrefl b

/-- A relation that holds universally holds pairwise on any list. -/
lemma pairwise_of_all {α : Type} {R : α → α → Prop} (h : ∀ a b, R a b) :
    ∀ l : List α, l.Pairwise R
  | [] => .nil
  | x :: xs => .cons (fun y _ => h x y) (pairwise_of_all h xs)

/-- Stability of sort_versions, expressed as preservation of the filter by
any version-key fiber: elements with equal keys keep their input order. -/
lemma sort_versions_filter_key (l : List Download) (k : Int × Int × Int) :
    (sort_versions l).filter (fun dl => version_key dl = k) =
      l.filter (fun dl => version_key dl = k) := by
  have hsub : List.Sublist (l.filter (fun dl => version_key dl = k)) (sort_versions l) := by
    unfold sort_versions
    refine List.sublist_mergeSort downloadLe_trans downloadLe_total
      ?_ (List.filter_sublist l)
    apply List.pairwise_filter.mpr
    apply pairwise_of_all
    intro a b hka hkb
    have hk : version_key a = version_key b := by
      rw [hka, hkb]
    show downloadLe a b
    unfold downloadLe
    rw [hk]
    exact keyLe_refl _
  have hfil : List.Sublist (l.filter (fun dl => version_key dl = k))
      ((sort_versions l).filter (fun dl => version_key dl = k)) := by
    have := hsub.filter (fun dl => decide (version_key dl = k))
    simpa [List.filter_filter] using this
  have hperm : ((sort_versions l).filter (fun dl => version_key dl = k)).Perm
      (l.filter (fun dl => version_key dl = k)) :=
    (sort_versions_perm l).filter _
  exact (hfil.eq_of_length hperm.length_eq.symm).symm

lemma keyLt_irrefl (a : Int × Int × Int) : ¬ keyLt a a := by
  obtain ⟨a1, a2, a3⟩ := a
  simp only [keyLt, decide_eq_true_eq]
  omega

lemma sort_versions_of_sorted {l : List Download}
    (h : l.Pairwise fun a b => downloadLe a b) : sort_versions l = l :=
  List.mergeSort_of_sorted h

/-- C7 counterexample: sorting [version "0.0.0", version "abc"] leaves the
unparsable release "abc" in second position (its key ties the legitimate
key (0,0,0) of "0.0.0" and stability keeps input order), so an unparsable
release does not always sort first. -/
theorem c7_unparsable_not_first_counterexample :
    parse_version_number "abc" = none ∧
    sort_versions
        [⟨"a", some "0.0.0", none, none, none⟩, ⟨"b", some "abc", none, none, none⟩] =
      [⟨"a", some "0.0.0", none, none, none⟩, ⟨"b", some "abc", none, none, none⟩] ∧
    (sort_versions
        [⟨"a", some "0.0.0", none, none, none⟩, ⟨"b", some "abc", none, none, none⟩]).head? ≠
      some ⟨"b", some "abc", none, none, none⟩ := by
  have hs : sort_versions
      [⟨"a", some "0.0.0", none, none, none⟩, ⟨"b", some "abc", none, none, none⟩] =
    [⟨"a", some "0.0.0", none, none, none⟩, ⟨"b", some "abc", none, none, none⟩] :=
    sort_versions_of_sorted (by decide)
  refine ⟨by decide, hs, ?_⟩
  rw [hs]
  decide

/-- C7 (amended): sort_versions is a stable total sort by the ordering
key — the output is pairwise ordered by keyLe (so of two releases with
differing keys the lower always comes first, whatever the input order),
each key fiber keeps its input order (stability), and an unparsable
version is treated as key (0, 0, 0) — hence it sorts before every release
with a key strictly above (0, 0, 0), though not necessarily first among
ties at that key. -/
theorem c7_sort_stable_total (l : List Download) :
    ((sort_versions l).Pairwise fun a b => keyLe (version_key a) (version_key b)) ∧
    (∀ k, (sort_versions l).filter (fun dl => version_key dl = k) =
      l.filter (fun dl => version_key dl = k)) ∧
    (∀ dl : Download, (∀ v, dl.version = some v → parse_version_number v = none) →
      version_key dl = (0, 0, 0)) := by
  refine ⟨?_, sort_versions_filter_key l, ?_⟩
  · exact sort_versions_pairwise l
  · intro dl h
    cases hv : dl.version with
    | none => simp [version_key, hv]
    | some v => simp [version_key, hv, h v hv]

/-- Witness for C7 at a singleton list and a concrete unparsable release. -/
theorem c7_sort_stable_total_witness :
    version_key ⟨"b", some "abc", none, none, none⟩ = (0, 0, 0) :=
  (c7_sort_stable_total []).2.2 ⟨"b", some "abc", none, none, none⟩
    (fun v hv => by
      have hv2 : v = "abc" := by simpa using hv.symm
      rw [hv2]
      decide)

/-- C3 counterexample: with two distinct releases carrying the same version
string "10.40", get_target_branch assigns BOTH to the latest track "main",
so the lineage assignment can put more than one release on latest. -/
theorem c3_two_releases_on_latest_counterexample :
    (⟨"a", some "10.40", none, none, none⟩ : Download) ≠
      ⟨"b", some "10.40", none, none, none⟩ ∧
    get_target_branch
        ((⟨"a", some "10.40", none, none, none⟩ : Download).version.getD "")
        [⟨"a", some "10.40", none, none, none⟩, ⟨"b", some "10.40", none, none, none⟩] =
      "main" ∧
    get_target_branch
        ((⟨"b", some "10.40", none, none, none⟩ : Download).version.getD "")
        [⟨"a", some "10.40", none, none, none⟩, ⟨"b", some "10.40", none, none, none⟩] =
      "main" := by
  have hs : sort_versions
      [⟨"a", some "10.40", none, none, none⟩, ⟨"b", some "10.40", none, none, none⟩] =
    [⟨"a", some "10.40", none, none, none⟩, ⟨"b", some "10.40", none, none, none⟩] :=
    sort_versions_of_sorted (by decide)
  refine ⟨by decide, ?_, ?_⟩ <;>
  · unfold get_target_branch is_latest_version get_highest_version
    rw [hs]
    decide

/-- C3 (amended): when one candidate's ordering key strictly dominates
every other candidate's key, the lineage assignment over the full candidate
list sends exactly that release to the latest track "main" and every other
release to the maintenance track "stable" — so at most one release reaches
latest and it is the numerically highest one. (The counterexample shows the
strictness hypothesis is needed: key ties let several releases reach
latest.) -/
theorem c3_unique_max_assigned_latest (all : List Download) (d : Download) (v : String)
    (hd : d ∈ all) (hv : d.version = some v)
    (hmax : ∀ e ∈ all, e ≠ d → keyLt (version_key e) (version_key d)) :
    get_target_branch v all = "main" ∧
    ∀ e ∈ all, ∀ w, e ≠ d → e.version = some w →
      get_target_branch w all = "stable" := by
  have hne : sort_versions all ≠ [] := by
    intro hnil
    have := (sort_versions_perm all).length_eq
    rw [hnil] at this
    cases all with
    | nil => exact absurd hd (List.not_mem_nil d)
    | cons x xs => simp at this
  have hlast_mem : (sort_versions all).getLast hne ∈ all :=
    mem_sort_versions.mp (List.getLast_mem hne)
  have hle : ∀ a ∈ sort_versions all, downloadLe a ((sort_versions all).getLast hne) :=
    fun a ha => pairwise_rel_getLast (fun x => by simpa [downloadLe] using keyLe_refl (version_key x))
      (sort_versions_pairwise all) hne ha
  have hlast_eq : (sort_versions all).getLast hne = d := by
    by_contra hne2
    have h1 : keyLt (version_key ((sort_versions all).getLast hne)) (version_key d) :=
      hmax _ hlast_mem hne2
    have h2 : downloadLe d ((sort_versions all).getLast hne) :=
      hle d (mem_sort_versions.mpr hd)
    exact keyLt_not_keyLe h1 h2
  have hhigh : get_highest_version all = some v := by
    unfold get_highest_version
    rw [List.getLast?_eq_getLast _ hne, hlast_eq]
    exact hv
  constructor
  · simp [get_target_branch, is_latest_version, hhigh]
  · intro e he w hed hw
    have hwv : w ≠ v := by
      intro hwveq
      have hkey : version_key e = version_key d := by
        simp [version_key, hw, hv, hwveq]
      have hlt := hmax e he hed
      rw [hkey] at hlt
      exact keyLt_irrefl _ hlt
    simp [get_target_branch, is_latest_version, hhigh, hwv]

/-- Witness for C3 (amended) at the concrete candidate pair of spec
scenario B: 10.40.01 strictly dominates 10.37.02 and is assigned main. -/
theorem c3_unique_max_assigned_latest_witness :
    get_target_branch "10.40.01"
      [⟨"b", some "10.37.02", none, none, none⟩, ⟨"a", some "10.40.01", none, none, none⟩] =
    "main" :=
  (c3_unique_max_assigned_latest
    [⟨"b", some "10.37.02", none, none, none⟩, ⟨"a", some "10.40.01", none, none, none⟩]
    ⟨"a", some "10.40.01", none, none, none⟩ "10.40.01"
    (by decide) rfl
    (by
      intro e he hed
      fin_cases he
      · decide
      · exact absurd rfl hed)).1

/-- Success condition of ensure_branch_exists: the branch exists locally,
or is fetched from the remote, or is created. -/
def ensure_ok (e : ReleaseEnv) : Bool :=
  e.branchLocal || (e.branchRemote && e.fetchOk) || e.createOk

lemma ensure_branch_exists_fst (e : ReleaseEnv) (b : Option String) :
    (ensure_branch_exists e b).1 = ensure_ok e := by
  obtain ⟨bl, br, fo, co, ck, ig, hc, bu, pu⟩ := e
  cases bl <;> cases br <;> cases fo <;> cases co <;> rfl

lemma processRelease_createdFrom (all : List Download) (initial_head : Option String)
    (st : RunState) (dl : Download) (e : ReleaseEnv) :
    (processRelease all initial_head st dl e).2.createdFrom =
      (ensure_branch_exists e (match initial_head with
        | some h => if get_target_branch (dl.version.getD "") all = "stable" ∧
            st.branchesUpdated.contains "main" then some h else none
        | none => none)).2 := by
  unfold processRelease
  dsimp only
  repeat first | rfl | split

/-- C2: if at its turn the target branch exists neither locally nor on the
remote and creation succeeds, a newly created branch forks from the run's
captured starting commit exactly when the target is the maintenance branch
"stable", the latest branch "main" was already updated earlier in this
run, and a starting commit was captured; in every other case it forks from
current HEAD. -/
theorem c2_fork_point (all : List Download) (initial_head : Option String)
    (st : RunState) (dl : Download) (e : ReleaseEnv)
    (h1 : e.branchLocal = false) (h2 : e.branchRemote = false)
    (h3 : e.createOk = true) :
    (processRelease all initial_head st dl e).2.createdFrom =
      some (match initial_head with
            | some h =>
              if get_target_branch (dl.version.getD "") all = "stable" ∧
                  st.branchesUpdated.contains "main" then
                CreateSource.fromRef h
              else CreateSource.fromHead
            | none => CreateSource.fromHead) := by
  rw [processRelease_createdFrom]
  unfold ensure_branch_exists
  simp only [h1, h2, h3, Bool.false_and, Bool.false_or, if_false, if_true,
    Bool.or_self, ite_true, ite_false, Bool.false_eq_true]
  cases initial_head with
  | none => rfl
  | some h =>
    dsimp only
    split
    · next v heq =>
      split at heq
      · next hcond =>
        cases heq
        rw [if_pos hcond]
      · next hcond => cases heq
    · next heq =>
      split at heq
      · next hcond => cases heq
      · next hcond => rw [if_neg hcond]

/-- Witness for C2: concrete run state in which "main" was already updated,
the stable branch is absent everywhere, and a starting commit was captured;
the new stable branch forks from that commit. -/
theorem c2_fork_point_witness :
    (processRelease
        [⟨"b", some "10.37.02", none, none, none⟩, ⟨"a", some "10.40.01", none, none, none⟩]
        (some "c0ffee") ⟨1, [], ["main"]⟩
        ⟨"b", some "10.37.02", none, none, none⟩
        ⟨false, false, false, true, true, true, true, true, true⟩).2.createdFrom =
      some (CreateSource.fromRef "c0ffee") := by
  have h := c2_fork_point
    [⟨"b", some "10.37.02", none, none, none⟩, ⟨"a", some "10.40.01", none, none, none⟩]
    (some "c0ffee") ⟨1, [], ["main"]⟩
    ⟨"b", some "10.37.02", none, none, none⟩
    ⟨false, false, false, true, true, true, true, true, true⟩ rfl rfl rfl
  rw [h]
  have hh : get_highest_version
      [⟨"b", some "10.37.02", none, none, none⟩, ⟨"a", some "10.40.01", none, none, none⟩] =
      some "10.40.01" := by
    unfold get_highest_version
    rw [sort_versions_of_sorted (by decide)]
    rfl
  have htb : get_target_branch "10.37.02"
      [⟨"b", some "10.37.02", none, none, none⟩, ⟨"a", some "10.40.01", none, none, none⟩] =
      "stable" := by
    unfold get_target_branch is_latest_version
    rw [hh]
    decide
  simp [htb]

/-- C1 counterexample: a concrete release whose ingest ends with nothing to
commit (tree unchanged, update_ibapi exits 0). The release ends in success
with no commit and no tag — but the orchestrator DOES attempt the build
and publish steps for it, because update_version cannot distinguish the
no-op success from a real one. -/
theorem c1_noop_counterexample :
    (commit_and_tag false).result = false ∧
    (commit_and_tag false).committed = false ∧
    (commit_and_tag false).tagged = false ∧
    ((processRelease [⟨"u", some "10.40.01", none, some "Mac / Unix", none⟩] (some "c0ffee")
        initState ⟨"u", some "10.40.01", none, some "Mac / Unix", none⟩
        ⟨true, false, false, false, true, true, false, true, true⟩).2.failed = false ∧
      (processRelease [⟨"u", some "10.40.01", none, some "Mac / Unix", none⟩] (some "c0ffee")
        initState ⟨"u", some "10.40.01", none, some "Mac / Unix", none⟩
        ⟨true, false, false, false, true, true, false, true, true⟩).2.committed = false ∧
      (processRelease [⟨"u", some "10.40.01", none, some "Mac / Unix", none⟩] (some "c0ffee")
        initState ⟨"u", some "10.40.01", none, some "Mac / Unix", none⟩
        ⟨true, false, false, false, true, true, false, true, true⟩).2.tagged = false ∧
      (processRelease [⟨"u", some "10.40.01", none, some "Mac / Unix", none⟩] (some "c0ffee")
        initState ⟨"u", some "10.40.01", none, some "Mac / Unix", none⟩
        ⟨true, false, false, false, true, true, false, true, true⟩).2.buildAttempted = true ∧
      (processRelease [⟨"u", some "10.40.01", none, some "Mac / Unix", none⟩] (some "c0ffee")
        initState ⟨"u", some "10.40.01", none, some "Mac / Unix", none⟩
        ⟨true, false, false, false, true, true, false, true, true⟩).2.publishAttempted = true) := by
  have hh : get_highest_version [⟨"u", some "10.40.01", none, some "Mac / Unix", none⟩] =
      some "10.40.01" := by
    unfold get_highest_version sort_versions
    rw [List.mergeSort_singleton]
    rfl
  have hp : processRelease [⟨"u", some "10.40.01", none, some "Mac / Unix", none⟩]
      (some "c0ffee") initState ⟨"u", some "10.40.01", none, some "Mac / Unix", none⟩
      ⟨true, false, false, false, true, true, false, true, true⟩ =
      ({ initState with successCount := 1, branchesUpdated := ["main"] },
       ⟨"10.40.01", "main", none, true, true, false, false, true, true, false⟩) := by
    unfold processRelease ensure_branch_exists update_ibapi_exit_ok commit_and_tag
    have htb : get_target_branch "10.40.01"
        [⟨"u", some "10.40.01", none, some "Mac / Unix", none⟩] = "main" := by
      unfold get_target_branch is_latest_version
      rw [hh]
      decide
    simp [htb, addBranch, initState]
  refine ⟨rfl, rfl, rfl, ?_, ?_, ?_, ?_, ?_⟩ <;> rw [hp]

/-- C1 (amended): when a release's ingestion finds nothing to commit (the
tree is unchanged) the release is treated as a non-error — no commit and no
tag are created, the release counts as succeeded, nothing is added to
failed_versions — but the orchestrator still runs the build and publish
steps for that release rather than skipping them. -/
theorem c1_noop_ingest_success_still_builds (all : List Download)
    (initial_head : Option String) (st : RunState) (dl : Download) (e : ReleaseEnv)
    (h1 : ensure_ok e = true) (h2 : e.checkoutOk = true) (h3 : e.ingestOk = true)
    (h4 : e.hasChanges = false) (h5 : e.buildOk = true) (h6 : e.publishOk = true) :
    (processRelease all initial_head st dl e).2.failed = false ∧
    (processRelease all initial_head st dl e).2.committed = false ∧
    (processRelease all initial_head st dl e).2.tagged = false ∧
    (processRelease all initial_head st dl e).2.buildAttempted = true ∧
    (processRelease all initial_head st dl e).2.publishAttempted = true ∧
    (processRelease all initial_head st dl e).1.successCount = st.successCount + 1 ∧
    (processRelease all initial_head st dl e).1.failedVersions = st.failedVersions := by
  simp only [processRelease]
  simp [ensure_branch_exists_fst, h1, h2, h3, h4, h5, h6, update_ibapi_exit_ok,
    commit_and_tag]

/-- Witness for C1 (amended), reusing the concrete no-op release. -/
theorem c1_noop_ingest_success_still_builds_witness :
    (processRelease [⟨"u", some "10.40.01", none, some "Mac / Unix", none⟩] (some "c0ffee")
        initState ⟨"u", some "10.40.01", none, some "Mac / Unix", none⟩
        ⟨true, false, false, false, true, true, false, true, true⟩).2.buildAttempted = true :=
  (c1_noop_ingest_success_still_builds
    [⟨"u", some "10.40.01", none, some "Mac / Unix", none⟩] (some "c0ffee")
    initState ⟨"u", some "10.40.01", none, some "Mac / Unix", none⟩
    ⟨true, false, false, false, true, true, false, true, true⟩
    rfl rfl rfl rfl rfl rfl).2.2.2.1

lemma processRelease_failedVersions (all : List Download) (initial_head : Option String)
    (st : RunState) (dl : Download) (e : ReleaseEnv) :
    (processRelease all initial_head st dl e).1.failedVersions =
      if releaseFails e then st.failedVersions ++ [dl.version.getD ""]
      else st.failedVersions := by
  obtain ⟨bl, br, fo, co, ck, ig, hc, bu, pu⟩ := e
  cases bl <;> cases br <;> cases fo <;> cases co <;> cases ck <;> cases ig <;>
    cases bu <;> cases pu <;> rfl

lemma processRelease_successCount (all : List Download) (initial_head : Option String)
    (st : RunState) (dl : Download) (e : ReleaseEnv) :
    (processRelease all initial_head st dl e).1.successCount =
      if releaseFails e then st.successCount else st.successCount + 1 := by
  obtain ⟨bl, br, fo, co, ck, ig, hc, bu, pu⟩ := e
  cases bl <;> cases br <;> cases fo <;> cases co <;> cases ck <;> cases ig <;>
    cases bu <;> cases pu <;> rfl

lemma runLoop_spec (all : List Download) (initial_head : Option String)
    (envOf : Download → ReleaseEnv) :
    ∀ (l : List Download) (st : RunState),
      (runLoop all initial_head envOf l st).1.failedVersions =
          st.failedVersions ++
            ((l.filter fun dl => releaseFails (envOf dl)).map fun dl => dl.version.getD "") ∧
      (runLoop all initial_head envOf l st).1.successCount =
          st.successCount + (l.filter fun dl => !releaseFails (envOf dl)).length ∧
      (runLoop all initial_head envOf l st).2.length = l.length
  | [], st => by simp [runLoop]
  | dl :: rest, st => by
    have ih2 := runLoop_spec all initial_head envOf rest
      ((processRelease all initial_head st dl (envOf dl)).1)
    unfold runLoop
    dsimp only
    refine ⟨?_, ?_, ?_⟩
    · rw [ih2.1, processRelease_failedVersions]
      cases hf : releaseFails (envOf dl) <;> simp [hf, List.filter_cons]
    · rw [ih2.2.1, processRelease_successCount]
      cases hf : releaseFails (envOf dl) <;> (simp [hf, List.filter_cons]; try omega)
    · simpa using ih2.2.2

/-- C8: over one whole post-fetch run, a failing step marks exactly its own
release as failed (failed_versions is precisely the ordered new releases
whose environment makes some step fail, in order), every other release is
still processed (one trace per release, successes counted independently),
and the process exit code is nonzero if and only if at least one release
failed. -/
theorem c8_failure_isolation_and_exit_code (all_downloads : List Download)
    (existing_tags : List String) (initial_head : Option String)
    (envOf : Download → ReleaseEnv) :
    (check_and_update_main all_downloads existing_tags initial_head envOf).state.failedVersions =
        ((sort_versions (find_new_versions (filter_mac_unix_downloads all_downloads)
            existing_tags)).filter
          (fun dl => releaseFails (envOf dl))).map (fun dl => dl.version.getD "") ∧
    (check_and_update_main all_downloads existing_tags initial_head envOf).state.successCount =
        ((sort_versions (find_new_versions (filter_mac_unix_downloads all_downloads)
            existing_tags)).filter
          (fun dl => !releaseFails (envOf dl))).length ∧
    (check_and_update_main all_downloads existing_tags initial_head envOf).traces.length =
        (sort_versions (find_new_versions (filter_mac_unix_downloads all_downloads)
          existing_tags)).length ∧
    ((check_and_update_main all_downloads existing_tags initial_head envOf).exitCode ≠ 0 ↔
      ∃ dl ∈ sort_versions (find_new_versions (filter_mac_unix_downloads all_downloads)
        existing_tags), releaseFails (envOf dl)) := by
  unfold check_and_update_main
  by_cases hd : filter_mac_unix_downloads all_downloads = []
  · simp [hd, find_new_versions, sort_versions, initState]
  · rw [if_neg hd]
    by_cases hn : find_new_versions (filter_mac_unix_downloads all_downloads) existing_tags = []
    · simp [hn, sort_versions, initState]
    · rw [if_neg hn]
      obtain ⟨hsf, hsc, hst⟩ := runLoop_spec (filter_mac_unix_downloads all_downloads)
        initial_head envOf
        (sort_versions (find_new_versions (filter_mac_unix_downloads all_downloads)
          existing_tags)) initState
      refine ⟨by simpa [initState] using hsf, by simpa [initState] using hsc,
        by simpa using hst, ?_⟩
      rw [show (⟨if (runLoop (filter_mac_unix_downloads all_downloads) initial_head envOf
            (sort_versions (find_new_versions (filter_mac_unix_downloads all_downloads)
              existing_tags)) initState).1.failedVersions = [] then 0 else 1,
          (runLoop (filter_mac_unix_downloads all_downloads) initial_head envOf
            (sort_versions (find_new_versions (filter_mac_unix_downloads all_downloads)
              existing_tags)) initState).1,
          (runLoop (filter_mac_unix_downloads all_downloads) initial_head envOf
            (sort_versions (find_new_versions (filter_mac_unix_downloads all_downloads)
              existing_tags)) initState).2⟩ : RunResult).exitCode =
        if (runLoop (filter_mac_unix_downloads all_downloads) initial_head envOf
            (sort_versions (find_new_versions (filter_mac_unix_downloads all_downloads)
              existing_tags)) initState).1.failedVersions = [] then 0 else 1 from rfl]
      rw [hsf]
      simp only [initState, List.nil_append]
      constructor
      · intro hne
        by_cases hf : (sort_versions (find_new_versions
            (filter_mac_unix_downloads all_downloads) existing_tags)).filter
              (fun dl => releaseFails (envOf dl)) = []
        · simp [hf] at hne
        · obtain ⟨dl, hdl⟩ := List.exists_mem_of_ne_nil _ hf
          have := List.mem_filter.mp hdl
          exact ⟨dl, this.1, this.2⟩
      · rintro ⟨dl, hdl, hfail⟩
        have hmem : dl ∈ (sort_versions (find_new_versions
            (filter_mac_unix_downloads all_downloads) existing_tags)).filter
              (fun dl => releaseFails (envOf dl)) :=
          List.mem_filter.mpr ⟨hdl, hfail⟩
        have hfne : (sort_versions (find_new_versions
            (filter_mac_unix_downloads all_downloads) existing_tags)).filter
              (fun dl => releaseFails (envOf dl)) ≠ [] :=
          List.ne_nil_of_mem hmem
        rw [if_neg (by simpa [List.map_eq_nil_iff] using hfne)]
        exact one_ne_zero
